import Mathlib

/-! SHA-1 (`src/C/sha1.c`): padding, compression and the digest driver.

A shallow embedding of the three functions of `sha1.c`.

* `uint32_t` is `unsigned long`, 32 bits wide on the compilers the snippet
  targets; a `uint32_t` value is a `Nat` below `2 ^ 32` and every arithmetic
  result is reduced modulo `2 ^ 32` where the C operation can wrap.
* A C array object (the `malloc` block, the message, the schedule `w[80]`) is
  a `Buffer`: its extent and its cells by index.  Reads and writes are
  checked against the extent and an access outside it makes the embedded
  function return `none` (undefined behaviour in C).
* A `for` loop whose trip count depends on the input is a function recursive
  on a fuel argument that still tests the loop condition of the source; it
  returns `none` when the fuel runs out with the condition still true.
-/

namespace SHA1

/-! ## Memory -/

/-- An array object: the number of cells it has and the value of each cell. -/
structure Buffer where
  size : Nat
  data : Nat → Nat

/-- The read `b[i]`. -/
def Buffer.load (b : Buffer) (i : Nat) : Option Nat :=
  if i < b.size then some (b.data i) else none

/-- The write `b[i] = v`. -/
def Buffer.store (b : Buffer) (i v : Nat) : Option Buffer :=
  if i < b.size then
    some { size := b.size, data := fun j => if j = i then v else b.data j }
  else none

/-- The pointer `&b[i]`: the cells of `b` from index `i` on. -/
def Buffer.offset (b : Buffer) (i : Nat) : Buffer :=
  { size := b.size - i, data := fun j => b.data (i + j) }

/-- The array object holding the given list of cells. -/
def Buffer.ofList (l : List Nat) : Buffer :=
  { size := l.length, data := fun j => l.getD j 0 }

/-- The library call `memcpy(dst, src, n)`. -/
def memcpy (dst src : Buffer) (n : Nat) : Option Buffer :=
  if n ≤ dst.size ∧ n ≤ src.size then
    some { size := dst.size, data := fun j => if j < n then src.data j else dst.data j }
  else none

/-! ## Constants -/

def H0 : Nat := 0x67452301
def H1 : Nat := 0xEFCDAB89
def H2 : Nat := 0x98BADCFE
def H3 : Nat := 0x10325476
def H4 : Nat := 0xC3D2E1F0

def K0 : Nat := 0x5A827999
def K1 : Nat := 0x6ED9EBA1
def K2 : Nat := 0x8F1BBCDC
def K3 : Nat := 0xCA62C1D6

/-- The five words `hash[0] .. hash[4]`. -/
structure Hash where
  h0 : Nat
  h1 : Nat
  h2 : Nat
  h3 : Nat
  h4 : Nat
  deriving DecidableEq, Repr

/-! ## `sha1_pad_message` -/

/-- The loop `for (i = length + 1; i < ((length + 64) & ~63) - 8; i++)
padded_message[i] = 0;` entered with the current `i`; `bound` is the value of
the right-hand side of the loop condition. -/
def pad_zero_loop (bound : Nat) : Nat → Nat → Buffer → Option Buffer
  | 0, i, padded_message => if i < bound then none else some padded_message
  | fuel + 1, i, padded_message =>
    if i < bound then
      (padded_message.store i 0).bind (pad_zero_loop bound fuel ((i + 1) % 2 ^ 32))
    else some padded_message

/-- The loop `for (i = 0; i < 8; i++) padded_message[((length + 64) & ~63) - 8 + i]
= (original_bits >> (56 - 8 * i)) & 0xFF;` entered with the current `i`.  The
shift counts 56, 48, 40 and 32 on the 32-bit `original_bits` give 0, as the
68k and PowerPC shift instructions do. -/
def pad_length_loop (length original_bits : Nat) : Nat → Nat → Buffer → Option Buffer
  | 0, i, padded_message => if i < 8 then none else some padded_message
  | fuel + 1, i, padded_message =>
    if i < 8 then
      (padded_message.store
          ((((((length + 64) % 2 ^ 32) &&& 0xFFFFFFC0) + 2 ^ 32 - 8) % 2 ^ 32 + i) % 2 ^ 32)
          ((original_bits >>> (56 - 8 * i)) &&& 0xFF)).bind
        (pad_length_loop length original_bits fuel ((i + 1) % 2 ^ 32))
    else some padded_message

/-- `sha1_pad_message(message, length, padded_message, &padded_length)`: the
buffer as the function leaves it and the value stored to `*padded_length`. -/
def sha1_pad_message (message : Buffer) (length : Nat) (padded_message : Buffer) :
    Option (Buffer × Nat) :=
  let original_bits := (length * 8) % 2 ^ 32
  (memcpy padded_message message length).bind fun p1 =>
  (p1.store length 0x80).bind fun p2 =>
  (pad_zero_loop (((((length + 64) % 2 ^ 32) &&& 0xFFFFFFC0) + 2 ^ 32 - 8) % 2 ^ 32)
      (2 ^ 32) ((length + 1) % 2 ^ 32) p2).bind fun p3 =>
  (pad_length_loop length original_bits 8 0 p3).bind fun p4 =>
  some (p4, ((length + 64) % 2 ^ 32) &&& 0xFFFFFFC0)

/-! ## `sha1_process_chunk` -/

/-- The body of `for (t = 0; t < 16; t++)`: `w[t] = (chunk[t*4] << 24) |
(chunk[t*4+1] << 16) | (chunk[t*4+2] << 8) | (chunk[t*4+3]);`. -/
def schedule_load (chunk : Buffer) (w : Buffer) (t : Nat) : Option Buffer :=
  (chunk.load (t * 4)).bind fun c0 =>
  (chunk.load (t * 4 + 1)).bind fun c1 =>
  (chunk.load (t * 4 + 2)).bind fun c2 =>
  (chunk.load (t * 4 + 3)).bind fun c3 =>
  w.store t (((c0 <<< 24) ||| (c1 <<< 16) ||| (c2 <<< 8) ||| c3) % 2 ^ 32)

/-- The body of `for (t = 16; t < 80; t++)`: `w[t] = (w[t-3] ^ w[t-8] ^ w[t-14]
^ w[t-16]); w[t] = (w[t] << 1) | (w[t] >> 31);`.  For `t < 16` the index
`t - 16` is negative, outside the array. -/
def schedule_expand (w : Buffer) (t : Nat) : Option Buffer :=
  if t < 16 then none else
  (w.load (t - 3)).bind fun x3 =>
  (w.load (t - 8)).bind fun x8 =>
  (w.load (t - 14)).bind fun x14 =>
  (w.load (t - 16)).bind fun x16 =>
  (w.store t (x3 ^^^ x8 ^^^ x14 ^^^ x16)).bind fun w1 =>
  (w1.load t).bind fun x =>
  w1.store t (((x <<< 1) % 2 ^ 32) ||| (x >>> 31))

/-- The body of the main loop `for (t = 0; t < 80; t++)` on the working
variables `a, b, c, d, e` (the fields `h0 .. h4` of `s`); `~b` on a 32-bit
word is `b ^ 0xFFFFFFFF`. -/
def sha1_round (w : Buffer) (s : Hash) (t : Nat) : Option Hash :=
  let a := s.h0
  let b := s.h1
  let c := s.h2
  let d := s.h3
  let e := s.h4
  let fk : Nat × Nat :=
    if t < 20 then ((b &&& c) ||| ((b ^^^ 0xFFFFFFFF) &&& d), K0)
    else if t < 40 then (b ^^^ c ^^^ d, K1)
    else if t < 60 then ((b &&& c) ||| (b &&& d) ||| (c &&& d), K2)
    else (b ^^^ c ^^^ d, K3)
  (w.load t).bind fun wt =>
  let temp := ((((a <<< 5) % 2 ^ 32) ||| (a >>> 27)) + fk.1 + e + fk.2 + wt) % 2 ^ 32
  some { h0 := temp, h1 := a, h2 := ((b <<< 30) % 2 ^ 32) ||| (b >>> 2), h3 := c, h4 := d }

/-- Runs a loop body over the successive values of the counter. -/
def for_each {σ : Type} (body : σ → Nat → Option σ) : List Nat → σ → Option σ
  | [], s => some s
  | t :: ts, s => (body s t).bind (for_each body ts)

/-- `sha1_process_chunk(chunk, hash)`: the five words as the function leaves
them.  The local `w[80]` is taken zeroed on entry; each of its cells is
written before it is read. -/
def sha1_process_chunk (chunk : Buffer) (hash : Hash) : Option Hash :=
  (for_each (schedule_load chunk) (List.range' 0 16) { size := 80, data := fun _ => 0 }).bind
    fun w1 =>
  (for_each schedule_expand (List.range' 16 64) w1).bind fun w =>
  (for_each (sha1_round w) (List.range' 0 80) hash).bind fun s =>
  some { h0 := (hash.h0 + s.h0) % 2 ^ 32,
         h1 := (hash.h1 + s.h1) % 2 ^ 32,
         h2 := (hash.h2 + s.h2) % 2 ^ 32,
         h3 := (hash.h3 + s.h3) % 2 ^ 32,
         h4 := (hash.h4 + s.h4) % 2 ^ 32 }

/-! ## `sha1` -/

/-- What the caller of `sha1` is left with: the five words of `digest` and
the lines written to standard output. -/
structure Outcome where
  digest : Hash
  stdout : List String
  deriving DecidableEq, Repr

/-- The loop `for (i = 0; i < padded_length; i += 64)
sha1_process_chunk(&padded_message[i], digest);` entered with the current `i`. -/
def sha1_block_loop (padded_message : Buffer) (padded_length : Nat) :
    Nat → Nat → Hash → Option Hash
  | 0, i, digest => if i < padded_length then none else some digest
  | fuel + 1, i, digest =>
    if i < padded_length then
      (sha1_process_chunk (padded_message.offset i) digest).bind
        (sha1_block_loop padded_message padded_length fuel ((i + 64) % 2 ^ 32))
    else some digest

/-- `sha1(message, length, digest)`.  `malloc` gives the block returned for a
requested size, `none` for `NULL`; `digest` is what the caller's array holds
on entry. -/
def sha1 (malloc : Nat → Option Buffer) (message : Buffer) (length : Nat) (digest : Hash) :
    Option Outcome :=
  let padded_length := ((length + 64) % 2 ^ 32) &&& 0xFFFFFFC0
  match malloc padded_length with
  | none => some { digest := digest, stdout := ["Memory allocation failure.\n"] }
  | some padded_message =>
    let digest : Hash := { h0 := H0, h1 := H1, h2 := H2, h3 := H3, h4 := H4 }
    (sha1_pad_message message length padded_message).bind fun r =>
    (sha1_block_loop r.1 r.2 (2 ^ 26) 0 digest).bind fun digest =>
    some { digest := digest, stdout := [] }

/-! ## Test inputs, allocators and reading aids -/

/-- The array object holding the bytes of an ASCII string (without a
terminating NUL). -/
def ascii (s : String) : Buffer := Buffer.ofList (s.toList.map Char.toNat)

/-- An allocator that always succeeds: a block of exactly the requested size
whose cells hold whatever `garbage` says. -/
def malloc_ok (garbage : Nat → Nat) : Nat → Option Buffer :=
  fun n => some { size := n, data := garbage }

/-- An allocator that always returns `NULL`. -/
def malloc_null : Nat → Option Buffer := fun _ => none

/-- The eight cells of `b` from index `i` on, read as a big-endian integer. -/
def be64 (b : Buffer) (i : Nat) : Nat :=
  b.data i * 2 ^ 56 + b.data (i + 1) * 2 ^ 48 + b.data (i + 2) * 2 ^ 40
    + b.data (i + 3) * 2 ^ 32 + b.data (i + 4) * 2 ^ 24 + b.data (i + 5) * 2 ^ 16
    + b.data (i + 6) * 2 ^ 8 + b.data (i + 7)

/-- Closed form of the cells `sha1_pad_message` leaves for a length below
`2 ^ 32 - 64`, the later writes of the source taking precedence over the
earlier ones (`sha1_pad_message_spec` proves it equal to the code): the
length field in the last 8 cells of the block, the zero fill, the marker, the
message, and the previous contents `old` elsewhere. -/
def pad_cells (message : Buffer) (L : Nat) (old : Nat → Nat) (j : Nat) : Nat :=
  if (L / 64 + 1) * 64 - 8 ≤ j ∧ j < (L / 64 + 1) * 64 then
    (((L * 8) % 2 ^ 32) >>> (56 - 8 * (j - ((L / 64 + 1) * 64 - 8)))) &&& 0xFF
  else if L + 1 ≤ j ∧ j < (L / 64 + 1) * 64 - 8 then 0
  else if j = L then 0x80
  else if j < L then message.data j
  else old j

/-- The schedule part of `sha1_process_chunk`: the array `w` as the two loops
`for (t = 0; t < 16; t++)` and `for (t = 16; t < 80; t++)` leave it. -/
def sha1_schedule (chunk : Buffer) : Option Buffer :=
  (for_each (schedule_load chunk) (List.range' 0 16) { size := 80, data := fun _ => 0 }).bind
    (for_each schedule_expand (List.range' 16 64))

/-! ## Definitions that follow the words of the specification -/

/-- Spec: rotate-left-n, the circular rotation of a 32-bit word `x` by `n`
positions (`0 < n < 32`): the low `32 - n` bits move up by `n` places and the
high `n` bits come round to the bottom. -/
def rotate_left (n x : Nat) : Nat := (x * 2 ^ n) % 2 ^ 32 + x / 2 ^ (32 - n)

/-- Spec: schedule words 0..15, the big-endian 32-bit interpretation of the
four-byte group `t` of the block. -/
def spec_word (block : Nat → Nat) (t : Nat) : Nat :=
  block (4 * t) * 2 ^ 24 + block (4 * t + 1) * 2 ^ 16 + block (4 * t + 2) * 2 ^ 8
    + block (4 * t + 3)

/-- Spec: schedule words 16..79,
`w[t] = rotate_left_1(w[t-3] XOR w[t-8] XOR w[t-14] XOR w[t-16])`. -/
def spec_expand (w : Nat → Nat) (t : Nat) : Nat :=
  rotate_left 1 (w (t - 3) ^^^ w (t - 8) ^^^ w (t - 14) ^^^ w (t - 16))

/-- Spec: the round function `f` on 32-bit words, by quarter of the 80 rounds;
`NOT b` is `2 ^ 32 - 1 - b`. -/
def spec_f (t b c d : Nat) : Nat :=
  if t < 20 then (b &&& c) ||| ((2 ^ 32 - 1 - b) &&& d)
  else if t < 40 then b ^^^ c ^^^ d
  else if t < 60 then (b &&& c) ||| (b &&& d) ||| (c &&& d)
  else b ^^^ c ^^^ d

/-- Spec: the round constant `K`, by quarter of the 80 rounds. -/
def spec_K (t : Nat) : Nat :=
  if t < 20 then 0x5A827999
  else if t < 40 then 0x6ED9EBA1
  else if t < 60 then 0x8F1BBCDC
  else 0xCA62C1D6

/-- Spec: one round step on `(a, b, c, d, e)`, held in the fields `h0 .. h4`:
`temp = rotl5(a) + f + e + K + w[t]` modulo `2 ^ 32`, then
`e = d; d = c; c = rotl30(b); b = a; a = temp`. -/
def spec_round (w : Nat → Nat) (s : Hash) (t : Nat) : Hash :=
  { h0 := (rotate_left 5 s.h0 + spec_f t s.h1 s.h2 s.h3 + s.h4 + spec_K t + w t) % 2 ^ 32,
    h1 := s.h0,
    h2 := rotate_left 30 s.h1,
    h3 := s.h2,
    h4 := s.h3 }

/-- A state of five 32-bit words: each of them is below `2 ^ 32`. -/
def Hash.words32 (h : Hash) : Prop :=
  h.h0 < 2 ^ 32 ∧ h.h1 < 2 ^ 32 ∧ h.h2 < 2 ^ 32 ∧ h.h3 < 2 ^ 32 ∧ h.h4 < 2 ^ 32

/-- Spec: the round function of the compressor, 80 applications of the round
step for `t = 0 .. 79`, starting from the working variables `h`. -/
def spec_rounds (w : Nat → Nat) (h : Hash) : Hash :=
  (List.range 80).foldl (spec_round w) h

/-- Spec: the state update, `a, b, c, d, e` added back into the five
hash-state words element-wise, modulo `2 ^ 32`. -/
def spec_add (h r : Hash) : Hash :=
  { h0 := (h.h0 + r.h0) % 2 ^ 32,
    h1 := (h.h1 + r.h1) % 2 ^ 32,
    h2 := (h.h2 + r.h2) % 2 ^ 32,
    h3 := (h.h3 + r.h3) % 2 ^ 32,
    h4 := (h.h4 + r.h4) % 2 ^ 32 }

/-- Spec: the eight bytes of `n` as a 64-bit big-endian integer, most
significant first. -/
def be64_bytes (n : Nat) : List Nat :=
  [n / 2 ^ 56 % 256, n / 2 ^ 48 % 256, n / 2 ^ 40 % 256, n / 2 ^ 32 % 256,
   n / 2 ^ 24 % 256, n / 2 ^ 16 % 256, n / 2 ^ 8 % 256, n % 256]

/-- Spec: the standard SHA-1 padding of a message `M` of `L` bytes: `M`, then
the byte 0x80, then `55 - (L mod 64)` zero bytes, then `L * 8` as a 64-bit
big-endian integer. -/
def standard_padding (M : List Nat) : List Nat :=
  M ++ [0x80] ++ List.replicate (55 - M.length % 64) 0 ++ be64_bytes (M.length * 8)

/-! ## Auxiliary facts -/

theorem Buffer.ext_data {n : Nat} {f g : Nat → Nat} (h : ∀ j, f j = g j) :
    (⟨n, f⟩ : Buffer) = ⟨n, g⟩ := by
  have e : f = g := funext h
  rw [e]

theorem land_mask (x : Nat) (hx : x < 2 ^ 32) : x &&& 0xFFFFFFC0 = x / 64 * 64 := by
  apply Nat.eq_of_testBit_eq
  intro i
  have hm : (0xFFFFFFC0 : Nat) = (2 ^ 26 - 1) <<< 6 := by decide
  have hd : x / 64 * 64 = (x >>> 6) <<< 6 := by
    simp [Nat.shiftLeft_eq, Nat.shiftRight_eq_div_pow]
  rw [Nat.testBit_land, hm, hd]
  simp only [Nat.testBit_shiftLeft, Nat.testBit_shiftRight, Nat.testBit_two_pow_sub_one]
  by_cases h6 : 6 ≤ i
  · by_cases h32 : i < 32
    · have : i - 6 < 26 := by omega
      have e : 6 + (i - 6) = i := by omega
      simp [h6, this, e]
    · have hf : x.testBit i = false := by
        apply Nat.testBit_lt_two_pow
        calc x < 2 ^ 32 := hx
          _ ≤ 2 ^ i := Nat.pow_le_pow_right (by decide) (by omega)
      have e : 6 + (i - 6) = i := by omega
      simp [hf, e]
  · simp [h6]

theorem padded_length_eq (L : Nat) (h : L < 2 ^ 32 - 64) :
    ((L + 64) % 2 ^ 32) &&& 0xFFFFFFC0 = (L / 64 + 1) * 64 := by
  have h1 : (L + 64) % 2 ^ 32 = L + 64 := Nat.mod_eq_of_lt (by omega)
  rw [h1, land_mask _ (by omega)]
  omega

theorem pad_zero_loop_spec (bound : Nat) (hb : bound < 2 ^ 32) :
    ∀ (fuel i : Nat) (buf : Buffer), bound ≤ buf.size → bound - i ≤ fuel →
      pad_zero_loop bound fuel i buf =
        some ⟨buf.size, fun j => if i ≤ j ∧ j < bound then 0 else buf.data j⟩ := by
  intro fuel
  induction fuel with
  | zero =>
    intro i buf _ hf
    have hi : ¬ i < bound := by omega
    simp only [pad_zero_loop, hi, if_false]
    cases buf with
    | mk size data =>
      refine congrArg some (Buffer.ext_data fun j => ?_)
      have : ¬ (i ≤ j ∧ j < bound) := by omega
      simp [this]
  | succ fuel ih =>
    intro i buf hs hf
    by_cases hi : i < bound
    · have hlt : i < buf.size := by omega
      have hmod : (i + 1) % 2 ^ 32 = i + 1 := Nat.mod_eq_of_lt (by omega)
      simp only [pad_zero_loop, hi, if_true, Buffer.store, hlt, Option.some_bind, hmod]
      rw [ih (i + 1) { size := buf.size, data := fun j => if j = i then 0 else buf.data j } hs
        (by omega)]
      refine congrArg some (Buffer.ext_data fun j => ?_)
      by_cases h1 : i + 1 ≤ j ∧ j < bound
      · have : i ≤ j ∧ j < bound := by omega
        simp [h1, this]
      · by_cases h2 : j = i
        · subst h2
          simp [hi]
        · have : ¬ (i ≤ j ∧ j < bound) := by omega
          simp [h1, h2, this]
    · simp only [pad_zero_loop, hi, if_false]
      cases buf with
      | mk size data =>
        refine congrArg some (Buffer.ext_data fun j => ?_)
        have : ¬ (i ≤ j ∧ j < bound) := by omega
        simp [this]

theorem pad_length_loop_spec (L ob base : Nat)
    (hbase : ((((L + 64) % 2 ^ 32) &&& 0xFFFFFFC0) + 2 ^ 32 - 8) % 2 ^ 32 = base)
    (h32 : base + 8 ≤ 2 ^ 32) :
    ∀ (fuel i : Nat) (buf : Buffer), base + 8 ≤ buf.size → 8 - i ≤ fuel →
      pad_length_loop L ob fuel i buf =
        some ⟨buf.size, fun j => if base + i ≤ j ∧ j < base + 8 then
          (ob >>> (56 - 8 * (j - base))) &&& 0xFF else buf.data j⟩ := by
  intro fuel
  induction fuel with
  | zero =>
    intro i buf _ hf
    have hi : ¬ i < 8 := by omega
    rw [pad_length_loop]
    simp only [hi, if_false]
    cases buf with
    | mk size data =>
      refine congrArg some (Buffer.ext_data fun j => ?_)
      have : ¬ (base + i ≤ j ∧ j < base + 8) := by omega
      simp [this]
  | succ fuel ih =>
    intro i buf hs hf
    rw [pad_length_loop]
    by_cases hi : i < 8
    · have hlt : base + i < buf.size := by omega
      have hidx : (base + i) % 2 ^ 32 = base + i := Nat.mod_eq_of_lt (by omega)
      have hmod : (i + 1) % 2 ^ 32 = i + 1 := Nat.mod_eq_of_lt (by omega)
      rw [hbase, hidx, hmod]
      simp only [hi, if_true, Buffer.store, hlt, Option.some_bind]
      rw [ih (i + 1) { size := buf.size, data := fun j => if j = base + i then
        (ob >>> (56 - 8 * i)) &&& 0xFF else buf.data j } hs (by omega)]
      refine congrArg some (Buffer.ext_data fun j => ?_)
      by_cases h1 : base + (i + 1) ≤ j ∧ j < base + 8
      · have : base + i ≤ j ∧ j < base + 8 := by omega
        simp [h1, this]
      · by_cases h2 : j = base + i
        · subst h2
          have e : base + i - base = i := by omega
          simp [hi, e]
        · have : ¬ (base + i ≤ j ∧ j < base + 8) := by omega
          simp [h1, h2, this]
    · simp only [hi, if_false]
      cases buf with
      | mk size data =>
        refine congrArg some (Buffer.ext_data fun j => ?_)
        have : ¬ (base + i ≤ j ∧ j < base + 8) := by omega
        simp [this]

theorem sha1_pad_message_spec (message buf : Buffer) (L : Nat) (hL : L < 2 ^ 32 - 64)
    (hm : L ≤ message.size) (hb : (L / 64 + 1) * 64 ≤ buf.size) :
    sha1_pad_message message L buf =
      some (⟨buf.size, pad_cells message L buf.data⟩, (L / 64 + 1) * 64) := by
  have hP := padded_length_eq L hL
  have hbase : ((((L + 64) % 2 ^ 32) &&& 0xFFFFFFC0) + 2 ^ 32 - 8) % 2 ^ 32
      = (L / 64 + 1) * 64 - 8 := by
    rw [hP]; omega
  have hL1 : (L + 1) % 2 ^ 32 = L + 1 := Nat.mod_eq_of_lt (by omega)
  have hcp : L ≤ buf.size ∧ L ≤ message.size := ⟨by omega, hm⟩
  have hlt : L < buf.size := by omega
  unfold sha1_pad_message
  rw [hbase, hL1, hP]
  simp only [memcpy, hcp, if_true, Option.some_bind, Buffer.store, hlt, and_self]
  rw [pad_zero_loop_spec _ (by omega) _ _ _ (by show (L / 64 + 1) * 64 - 8 ≤ buf.size; omega)
    (by omega)]
  simp only [Option.some_bind]
  rw [pad_length_loop_spec L _ _ hbase (by omega) _ _ _
    (by show (L / 64 + 1) * 64 - 8 + 8 ≤ buf.size; omega) (by omega)]
  simp only [Option.some_bind]
  refine congrArg some (congrArg₂ Prod.mk (Buffer.ext_data fun j => ?_) rfl)
  unfold pad_cells
  have e8 : (L / 64 + 1) * 64 - 8 + 8 = (L / 64 + 1) * 64 := by omega
  simp only [Nat.add_zero, e8]

theorem pad_cells_old_irrelevant (message : Buffer) (L : Nat) (g g' : Nat → Nat) (j : Nat)
    (hj : j < (L / 64 + 1) * 64) : pad_cells message L g j = pad_cells message L g' j := by
  unfold pad_cells
  by_cases h1 : (L / 64 + 1) * 64 - 8 ≤ j ∧ j < (L / 64 + 1) * 64
  · simp only [h1, and_self, if_true]
  · by_cases h2 : L + 1 ≤ j ∧ j < (L / 64 + 1) * 64 - 8
    · simp only [h1, h2, and_self, if_true, if_false]
    · by_cases h3 : j = L
      · simp only [h1, h2, h3, if_true, if_false]
      · by_cases h4 : j < L
        · simp only [h1, h2, h3, h4, if_true, if_false]
        · exfalso; omega

theorem for_each_inv {σ : Type} (body : σ → Nat → Option σ) (inv : σ → Prop) (ts : List Nat)
    (hstep : ∀ s t, t ∈ ts → inv s → ∃ s', body s t = some s' ∧ inv s') :
    ∀ s, inv s → ∃ s', for_each body ts s = some s' ∧ inv s' := by
  induction ts with
  | nil => intro s hs; exact ⟨s, rfl, hs⟩
  | cons t ts ih =>
    intro s hs
    obtain ⟨s1, h1, hi1⟩ := hstep s t (List.mem_cons_self t ts) hs
    obtain ⟨s2, h2, hi2⟩ :=
      ih (fun s t ht hs => hstep s t (List.mem_cons_of_mem _ ht) hs) s1 hi1
    exact ⟨s2, by simp only [for_each, h1, Option.some_bind, h2], hi2⟩

theorem for_each_eq_foldlM {σ : Type} (body : σ → Nat → Option σ) (ts : List Nat) :
    ∀ s, for_each body ts s = ts.foldlM body s := by
  induction ts with
  | nil => intro s; rfl
  | cons t ts ih =>
    intro s
    simp only [for_each, List.foldlM_cons, Option.bind_eq_bind]
    cases body s t with
    | none => rfl
    | some s1 => simp only [Option.some_bind, ih]

theorem schedule_load_total (chunk w : Buffer) (t : Nat) (hc : 64 ≤ chunk.size)
    (hw : w.size = 80) (ht : t < 16) :
    ∃ w', schedule_load chunk w t = some w' ∧ w'.size = 80 := by
  have h0 : t * 4 < chunk.size := by omega
  have h1 : t * 4 + 1 < chunk.size := by omega
  have h2 : t * 4 + 2 < chunk.size := by omega
  have h3 : t * 4 + 3 < chunk.size := by omega
  have h4 : t < w.size := by omega
  simp only [schedule_load, Buffer.load, Buffer.store, h0, h1, h2, h3, h4, if_true,
    Option.some_bind]
  exact ⟨_, rfl, hw⟩

theorem schedule_expand_total (w : Buffer) (t : Nat) (hw : w.size = 80) (h16 : 16 ≤ t)
    (ht : t < 80) : ∃ w', schedule_expand w t = some w' ∧ w'.size = 80 := by
  have hn : ¬ t < 16 := by omega
  have h0 : t - 3 < w.size := by omega
  have h1 : t - 8 < w.size := by omega
  have h2 : t - 14 < w.size := by omega
  have h3 : t - 16 < w.size := by omega
  have h4 : t < w.size := by omega
  simp only [schedule_expand, Buffer.load, Buffer.store, hn, h0, h1, h2, h3, h4, if_true,
    if_false, Option.some_bind]
  exact ⟨_, rfl, hw⟩

theorem sha1_round_total (w : Buffer) (s : Hash) (t : Nat) (hw : w.size = 80) (ht : t < 80) :
    ∃ s', sha1_round w s t = some s' := by
  have h4 : t < w.size := by omega
  simp only [sha1_round, Buffer.load, h4, if_true, Option.some_bind]
  exact ⟨_, rfl⟩

theorem sha1_process_chunk_total (chunk : Buffer) (hash : Hash) (hc : 64 ≤ chunk.size) :
    ∃ hash', sha1_process_chunk chunk hash = some hash' := by
  obtain ⟨w1, e1, hw1⟩ := for_each_inv (schedule_load chunk) (fun w => w.size = 80)
    (List.range' 0 16)
    (fun w t ht hw => schedule_load_total chunk w t hc hw (by
      have := List.mem_range'_1.mp ht; omega))
    { size := 80, data := fun _ => 0 } rfl
  obtain ⟨w, e2, hw⟩ := for_each_inv schedule_expand (fun w => w.size = 80)
    (List.range' 16 64)
    (fun w t ht hw => by
      have := List.mem_range'_1.mp ht
      exact schedule_expand_total w t hw (by omega) (by omega))
    w1 hw1
  obtain ⟨s, e3, _⟩ := for_each_inv (sha1_round w) (fun _ => True) (List.range' 0 80)
    (fun s t ht _ => by
      have := List.mem_range'_1.mp ht
      obtain ⟨s', hs'⟩ := sha1_round_total w s t hw (by omega)
      exact ⟨s', hs', trivial⟩)
    hash trivial
  simp only [sha1_process_chunk, e1, e2, e3, Option.some_bind]
  exact ⟨_, rfl⟩

theorem sha1_process_chunk_congr (chunk chunk' : Buffer) (hash : Hash)
    (h : ∀ j, chunk.load j = chunk'.load j) :
    sha1_process_chunk chunk hash = sha1_process_chunk chunk' hash := by
  have e : schedule_load chunk = schedule_load chunk' := by
    funext w t
    simp only [schedule_load, h]
  simp only [sha1_process_chunk, e]

theorem Buffer.load_offset (b : Buffer) (i j : Nat) : (b.offset i).load j = b.load (i + j) := by
  simp only [Buffer.load, Buffer.offset]
  by_cases h : i + j < b.size
  · have : j < b.size - i := by omega
    simp only [h, this, if_true]
  · have : ¬ j < b.size - i := by omega
    simp only [h, this, if_false]

theorem sha1_block_loop_congr (b b' : Buffer) (P : Nat) (h : ∀ j, b.load j = b'.load j) :
    ∀ (fuel i : Nat) (d : Hash),
      sha1_block_loop b P fuel i d = sha1_block_loop b' P fuel i d := by
  intro fuel
  induction fuel with
  | zero => intro i d; rfl
  | succ fuel ih =>
    intro i d
    have e : sha1_process_chunk (b.offset i) d = sha1_process_chunk (b'.offset i) d :=
      sha1_process_chunk_congr _ _ d (fun j => by rw [Buffer.load_offset, Buffer.load_offset, h])
    have e2 : sha1_block_loop b P fuel ((i + 64) % 2 ^ 32)
        = sha1_block_loop b' P fuel ((i + 64) % 2 ^ 32) := funext fun d => ih _ d
    simp only [sha1_block_loop, e, e2]

theorem sha1_block_loop_spec (buf : Buffer) (n : Nat) (hn : n * 64 < 2 ^ 32) :
    ∀ (fuel k : Nat) (d : Hash), k ≤ n → n - k ≤ fuel →
      sha1_block_loop buf (n * 64) fuel (k * 64) d =
        for_each (fun d b => sha1_process_chunk (buf.offset (b * 64)) d)
          (List.range' k (n - k)) d := by
  intro fuel
  induction fuel with
  | zero =>
    intro k d hk hf
    have e : n - k = 0 := by omega
    have hlt : ¬ k * 64 < n * 64 := by omega
    simp only [sha1_block_loop, hlt, if_false, e, List.range'_zero, for_each]
  | succ fuel ih =>
    intro k d hk hf
    by_cases hlt : k < n
    · have h1 : k * 64 < n * 64 := by omega
      have hmod : (k * 64 + 64) % 2 ^ 32 = (k + 1) * 64 := by
        rw [Nat.mod_eq_of_lt (by omega)]; omega
      have hr : n - k = (n - (k + 1)) + 1 := by omega
      have e2 : sha1_block_loop buf (n * 64) fuel ((k + 1) * 64)
          = for_each (fun d b => sha1_process_chunk (buf.offset (b * 64)) d)
              (List.range' (k + 1) (n - (k + 1))) :=
        funext fun d => ih (k + 1) d (by omega) (by omega)
      rw [hr, List.range'_succ]
      simp only [sha1_block_loop, h1, if_true, hmod, e2, for_each]
    · have e : n - k = 0 := by omega
      have hlt : ¬ k * 64 < n * 64 := by omega
      simp only [sha1_block_loop, hlt, if_false, e, List.range'_zero, for_each]

theorem sha1_pad_message_length_eq (message buf : Buffer) (L : Nat) (r : Buffer × Nat)
    (h : sha1_pad_message message L buf = some r) :
    r.2 = ((L + 64) % 2 ^ 32) &&& 0xFFFFFFC0 := by
  simp only [sha1_pad_message, Option.bind_eq_some] at h
  obtain ⟨_, _, _, _, _, _, _, _, hr⟩ := h
  rw [← Option.some.inj hr]

theorem sha1_malloc_contents_irrelevant (g g' : Nat → Nat) (message : Buffer) (L : Nat)
    (d d' : Hash) (hL : L < 2 ^ 32 - 64) (hm : L ≤ message.size) :
    sha1 (malloc_ok g) message L d = sha1 (malloc_ok g') message L d' := by
  have hP := padded_length_eq L hL
  have hload : ∀ j, Buffer.load ⟨(L / 64 + 1) * 64, pad_cells message L g⟩ j
      = Buffer.load ⟨(L / 64 + 1) * 64, pad_cells message L g'⟩ j := by
    intro j
    simp only [Buffer.load]
    by_cases hj : j < (L / 64 + 1) * 64
    · simp only [hj, if_true, pad_cells_old_irrelevant message L g g' j hj]
    · simp only [hj, if_false]
  simp only [sha1, malloc_ok, hP]
  rw [sha1_pad_message_spec message ⟨(L / 64 + 1) * 64, g⟩ L hL hm (Nat.le_refl _),
    sha1_pad_message_spec message ⟨(L / 64 + 1) * 64, g'⟩ L hL hm (Nat.le_refl _)]
  simp only [Option.some_bind]
  rw [sha1_block_loop_congr _ _ _ hload]

theorem Buffer.store_some (b : Buffer) (i v : Nat) (r : Buffer) (h : b.store i v = some r) :
    i < b.size ∧ r.size = b.size := by
  unfold Buffer.store at h
  by_cases hi : i < b.size
  · simp only [hi, if_true] at h
    rw [← Option.some.inj h]
    exact ⟨hi, rfl⟩
  · simp only [hi, if_false] at h
    exact absurd h (by simp)

theorem pad_zero_loop_size (bound : Nat) :
    ∀ (fuel i : Nat) (b r : Buffer), pad_zero_loop bound fuel i b = some r →
      r.size = b.size := by
  intro fuel
  induction fuel with
  | zero =>
    intro i b r h
    rw [pad_zero_loop] at h
    by_cases hi : i < bound
    · simp only [hi, if_true] at h
      exact absurd h (by simp)
    · simp only [hi, if_false] at h
      rw [← Option.some.inj h]
  | succ fuel ih =>
    intro i b r h
    rw [pad_zero_loop] at h
    by_cases hi : i < bound
    · simp only [hi, if_true, Option.bind_eq_some] at h
      obtain ⟨b1, hb1, hr⟩ := h
      rw [ih _ _ _ hr, (Buffer.store_some _ _ _ _ hb1).2]
    · simp only [hi, if_false] at h
      rw [← Option.some.inj h]

theorem pad_length_loop_bounds (L ob : Nat) :
    ∀ (fuel i : Nat) (b r : Buffer), pad_length_loop L ob fuel i b = some r →
      r.size = b.size ∧ ∀ k, i ≤ k → k < 8 →
        (((((L + 64) % 2 ^ 32) &&& 0xFFFFFFC0) + 2 ^ 32 - 8) % 2 ^ 32 + k) % 2 ^ 32 < b.size := by
  intro fuel
  induction fuel with
  | zero =>
    intro i b r h
    rw [pad_length_loop] at h
    by_cases hi : i < 8
    · simp only [hi, if_true] at h
      exact absurd h (by simp)
    · simp only [hi, if_false] at h
      rw [← Option.some.inj h]
      exact ⟨rfl, fun k h1 h2 => by omega⟩
  | succ fuel ih =>
    intro i b r h
    rw [pad_length_loop] at h
    by_cases hi : i < 8
    · simp only [hi, if_true, Option.bind_eq_some] at h
      obtain ⟨b1, hb1, hr⟩ := h
      obtain ⟨hlt, hsz⟩ := Buffer.store_some _ _ _ _ hb1
      have hmod : (i + 1) % 2 ^ 32 = i + 1 := Nat.mod_eq_of_lt (by omega)
      rw [hmod] at hr
      obtain ⟨h1, h2⟩ := ih _ _ _ hr
      refine ⟨by rw [h1, hsz], fun k hk hk8 => ?_⟩
      by_cases hki : k = i
      · rw [hki]; exact hlt
      · rw [← hsz]; exact h2 k (by omega) hk8
    · simp only [hi, if_false] at h
      rw [← Option.some.inj h]
      exact ⟨rfl, fun k h1 h2 => by omega⟩

theorem sha1_pad_message_some (message buf : Buffer) (L : Nat) (r : Buffer × Nat)
    (h : sha1_pad_message message L buf = some r) :
    L ≤ message.size ∧ L < buf.size ∧ (((L + 64) % 2 ^ 32) &&& 0xFFFFFFC0) ≤ buf.size ∧
      r.1.size = buf.size := by
  have hmask := land_mask ((L + 64) % 2 ^ 32) (Nat.mod_lt _ (by decide))
  have hlt32 : (L + 64) % 2 ^ 32 < 2 ^ 32 := Nat.mod_lt _ (by decide)
  simp only [sha1_pad_message, Option.bind_eq_some] at h
  obtain ⟨p1, h1, p2, h2, p3, h3, p4, h4, hr⟩ := h
  have hcp : (L ≤ buf.size ∧ L ≤ message.size) ∧ p1.size = buf.size := by
    unfold memcpy at h1
    by_cases hc : L ≤ buf.size ∧ L ≤ message.size
    · simp only [hc, and_self, if_true] at h1
      rw [← Option.some.inj h1]
      exact ⟨hc, rfl⟩
    · simp only [hc, if_false] at h1
      exact absurd h1 (by simp)
  obtain ⟨hm, hs2⟩ := Buffer.store_some _ _ _ _ h2
  have hs3 := pad_zero_loop_size _ _ _ _ _ h3
  obtain ⟨hs4, hidx⟩ := pad_length_loop_bounds _ _ _ _ _ _ h4
  have h7 := hidx 7 (by omega) (by omega)
  rw [hs3, hs2, hcp.2] at h7
  rw [← Option.some.inj hr]
  refine ⟨hcp.1.2, by rw [← hcp.2]; exact hm, ?_, by show p4.size = buf.size; rw [hs4, hs3, hs2, hcp.2]⟩
  rw [hmask] at h7 ⊢
  omega

theorem pad_zero_loop_isSome_congr (bound : Nat) :
    ∀ (fuel i : Nat) (b b' : Buffer), b.size = b'.size →
      (pad_zero_loop bound fuel i b).isSome = (pad_zero_loop bound fuel i b').isSome := by
  intro fuel
  induction fuel with
  | zero =>
    intro i b b' _
    rw [pad_zero_loop, pad_zero_loop]
    by_cases hi : i < bound
    · simp only [hi, if_true]
    · simp only [hi, if_false, Option.isSome_some]
  | succ fuel ih =>
    intro i b b' hs
    rw [pad_zero_loop, pad_zero_loop]
    by_cases hi : i < bound
    · by_cases hlt : i < b.size
      · have hlt' : i < b'.size := by omega
        simp only [hi, if_true, Buffer.store, hlt, hlt', Option.some_bind]
        exact ih _ _ _ hs
      · have hlt' : ¬ i < b'.size := by omega
        simp only [hi, if_true, Buffer.store, hlt, hlt', if_false, Option.none_bind]
    · simp only [hi, if_false, Option.isSome_some]

theorem pad_length_loop_isSome_congr (L ob : Nat) :
    ∀ (fuel i : Nat) (b b' : Buffer), b.size = b'.size →
      (pad_length_loop L ob fuel i b).isSome = (pad_length_loop L ob fuel i b').isSome := by
  intro fuel
  induction fuel with
  | zero =>
    intro i b b' _
    rw [pad_length_loop, pad_length_loop]
    by_cases hi : i < 8
    · simp only [hi, if_true]
    · simp only [hi, if_false, Option.isSome_some]
  | succ fuel ih =>
    intro i b b' hs
    rw [pad_length_loop, pad_length_loop]
    by_cases hi : i < 8
    · by_cases hlt : (((((L + 64) % 2 ^ 32) &&& 0xFFFFFFC0) + 2 ^ 32 - 8) % 2 ^ 32 + i) % 2 ^ 32
          < b.size
      · have hlt' := hlt
        rw [hs] at hlt'
        simp only [hi, if_true, Buffer.store, hlt, hlt', Option.some_bind]
        exact ih _ _ _ hs
      · have hlt' := hlt
        rw [hs] at hlt'
        simp only [hi, if_true, Buffer.store, hlt, hlt', if_false, Option.none_bind]
    · simp only [hi, if_false, Option.isSome_some]

theorem isSome_bind_congr {α β : Type} (R : α → α → Prop) (x x' : Option α)
    (f f' : α → Option β) (hx : x.isSome = x'.isSome)
    (hR : ∀ a a', x = some a → x' = some a' → R a a')
    (hf : ∀ a a', R a a' → (f a).isSome = (f' a').isSome) :
    (x.bind f).isSome = (x'.bind f').isSome := by
  cases x with
  | none =>
    cases x' with
    | none => rfl
    | some a' => exact absurd hx (by simp)
  | some a =>
    cases x' with
    | none => exact absurd hx (by simp)
    | some a' => exact hf a a' (hR a a' rfl rfl)

theorem memcpy_some (dst src : Buffer) (n : Nat) (r : Buffer) (h : memcpy dst src n = some r) :
    (n ≤ dst.size ∧ n ≤ src.size) ∧ r.size = dst.size := by
  unfold memcpy at h
  by_cases hc : n ≤ dst.size ∧ n ≤ src.size
  · simp only [hc, and_self, if_true] at h
    rw [← Option.some.inj h]
    exact ⟨hc, rfl⟩
  · simp only [hc, if_false] at h
    exact absurd h (by simp)

theorem sha1_pad_message_isSome_congr (M1 M2 buf : Buffer) (L : Nat) (h1 : L ≤ M1.size)
    (h2 : L ≤ M2.size) :
    (sha1_pad_message M1 L buf).isSome = (sha1_pad_message M2 L buf).isSome := by
  unfold sha1_pad_message
  refine isSome_bind_congr (fun a a' => a.size = a'.size) _ _ _ _ ?_ ?_ ?_
  · unfold memcpy
    by_cases hc : L ≤ buf.size
    · have c1 : L ≤ buf.size ∧ L ≤ M1.size := ⟨hc, h1⟩
      have c2 : L ≤ buf.size ∧ L ≤ M2.size := ⟨hc, h2⟩
      simp only [c1, c2, and_self, if_true, Option.isSome_some]
    · have c1 : ¬ (L ≤ buf.size ∧ L ≤ M1.size) := fun h => hc h.1
      have c2 : ¬ (L ≤ buf.size ∧ L ≤ M2.size) := fun h => hc h.1
      simp only [c1, c2, if_false]
  · intro a a' e e'
    rw [(memcpy_some _ _ _ _ e).2, (memcpy_some _ _ _ _ e').2]
  · intro p1 q1 hs1
    refine isSome_bind_congr (fun a a' => a.size = a'.size) _ _ _ _ ?_ ?_ ?_
    · unfold Buffer.store
      rw [hs1]
      by_cases hlt : L < q1.size
      · simp only [hlt, if_true, Option.isSome_some]
      · simp only [hlt, if_false]
    · intro a a' e e'
      rw [(Buffer.store_some _ _ _ _ e).2, (Buffer.store_some _ _ _ _ e').2, hs1]
    · intro p2 q2 hs2
      refine isSome_bind_congr (fun a a' => a.size = a'.size) _ _ _ _ ?_ ?_ ?_
      · exact pad_zero_loop_isSome_congr _ _ _ _ _ hs2
      · intro a a' e e'
        rw [pad_zero_loop_size _ _ _ _ _ e, pad_zero_loop_size _ _ _ _ _ e', hs2]
      · intro p3 q3 hs3
        refine isSome_bind_congr (fun _ _ => True) _ _ _ _ ?_ ?_ ?_
        · exact pad_length_loop_isSome_congr _ _ _ _ _ _ hs3
        · intro _ _ _ _
          trivial
        · intro _ _ _
          simp only [Option.isSome_some]

theorem sha1_block_loop_zero (b : Buffer) (fuel i : Nat) (d : Hash) :
    sha1_block_loop b 0 fuel i d = some d := by
  cases fuel with
  | zero => rw [sha1_block_loop]; simp only [Nat.not_lt_zero, if_false]
  | succ fuel => rw [sha1_block_loop]; simp only [Nat.not_lt_zero, if_false]

theorem sha1_process_chunk_eq_schedule (chunk : Buffer) (hash : Hash) :
    sha1_process_chunk chunk hash =
      (sha1_schedule chunk).bind fun w =>
        (for_each (sha1_round w) (List.range' 0 80) hash).bind fun s =>
          some { h0 := (hash.h0 + s.h0) % 2 ^ 32,
                 h1 := (hash.h1 + s.h1) % 2 ^ 32,
                 h2 := (hash.h2 + s.h2) % 2 ^ 32,
                 h3 := (hash.h3 + s.h3) % 2 ^ 32,
                 h4 := (hash.h4 + s.h4) % 2 ^ 32 } := by
  unfold sha1_process_chunk sha1_schedule
  rw [Option.bind_assoc]

theorem sha1_schedule_total (chunk : Buffer) (hc : 64 ≤ chunk.size) :
    ∃ w, sha1_schedule chunk = some w ∧ w.size = 80 := by
  obtain ⟨w1, e1, hw1⟩ := for_each_inv (schedule_load chunk) (fun w => w.size = 80)
    (List.range' 0 16)
    (fun w t ht hw => schedule_load_total chunk w t hc hw (by
      have := List.mem_range'_1.mp ht; omega))
    { size := 80, data := fun _ => 0 } rfl
  obtain ⟨w, e2, hw⟩ := for_each_inv schedule_expand (fun w => w.size = 80)
    (List.range' 16 64)
    (fun w t ht hw => by
      have := List.mem_range'_1.mp ht
      exact schedule_expand_total w t hw (by omega) (by omega))
    w1 hw1
  refine ⟨w, ?_, hw⟩
  unfold sha1_schedule
  rw [e1, Option.some_bind, e2]

theorem sha1_eq_block_fold (malloc : Nat → Option Buffer) (message buf : Buffer) (L : Nat)
    (digest : Hash) (hL : L < 2 ^ 32 - 64) (hm : L ≤ message.size)
    (ha : malloc (((L + 64) % 2 ^ 32) &&& 0xFFFFFFC0) = some buf)
    (hs : (L / 64 + 1) * 64 ≤ buf.size) :
    ∃ final,
      for_each (fun d b => sha1_process_chunk
          (Buffer.offset ⟨buf.size, pad_cells message L buf.data⟩ (b * 64)) d)
        (List.range' 0 (L / 64 + 1))
        ⟨0x67452301, 0xEFCDAB89, 0x98BADCFE, 0x10325476, 0xC3D2E1F0⟩ = some final ∧
      sha1 malloc message L digest = some ⟨final, []⟩ := by
  have hpad := sha1_pad_message_spec message buf L hL hm hs
  have hloop := sha1_block_loop_spec ⟨buf.size, pad_cells message L buf.data⟩ (L / 64 + 1)
    (by omega) (2 ^ 26) 0 ⟨0x67452301, 0xEFCDAB89, 0x98BADCFE, 0x10325476, 0xC3D2E1F0⟩
    (by omega) (by omega)
  rw [Nat.zero_mul, Nat.sub_zero] at hloop
  obtain ⟨final, hfold, _⟩ := for_each_inv
    (fun d b => sha1_process_chunk
      (Buffer.offset ⟨buf.size, pad_cells message L buf.data⟩ (b * 64)) d)
    (fun _ => True) (List.range' 0 (L / 64 + 1))
    (fun d b hb _ => by
      have hlt := List.mem_range'_1.mp hb
      obtain ⟨d', hd'⟩ := sha1_process_chunk_total
        (Buffer.offset ⟨buf.size, pad_cells message L buf.data⟩ (b * 64)) d
        (by show 64 ≤ buf.size - b * 64; omega)
      exact ⟨d', hd', trivial⟩)
    ⟨0x67452301, 0xEFCDAB89, 0x98BADCFE, 0x10325476, 0xC3D2E1F0⟩ trivial
  refine ⟨final, hfold, ?_⟩
  simp only [sha1, ha, hpad, Option.some_bind, H0, H1, H2, H3, H4]
  rw [hloop, hfold]
  rfl

theorem pad_cells_message_congr (M1 M2 : Buffer) (L : Nat) (old : Nat → Nat)
    (hag : ∀ j, j < (L / 64 + 1) * 64 - 8 → M1.data j = M2.data j) (j : Nat) :
    pad_cells M1 L old j = pad_cells M2 L old j := by
  unfold pad_cells
  by_cases c1 : (L / 64 + 1) * 64 - 8 ≤ j ∧ j < (L / 64 + 1) * 64
  · simp only [c1, and_self, if_true]
  · by_cases c2 : L + 1 ≤ j ∧ j < (L / 64 + 1) * 64 - 8
    · simp only [c1, c2, and_self, if_true, if_false]
    · by_cases c3 : j = L
      · simp only [c1, c2, c3, if_true, if_false]
      · by_cases c4 : j < L
        · simp only [c1, c2, c3, c4, if_true, if_false, hag j (by omega)]
        · simp only [c1, c2, c3, c4, if_false]

theorem padded_length_wrap (L : Nat) (h1 : 2 ^ 32 - 64 ≤ L) (h2 : L < 2 ^ 32) :
    ((L + 64) % 2 ^ 32) &&& 0xFFFFFFC0 = 0 := by
  rw [land_mask _ (Nat.mod_lt _ (by decide))]
  omega

theorem rotate_left_eq (n x : Nat) (hn : n ≤ 32) (hx : x < 2 ^ 32) :
    ((x <<< n) % 2 ^ 32) ||| (x >>> (32 - n)) = rotate_left n x ∧ rotate_left n x < 2 ^ 32 := by
  have h32 : (2 : Nat) ^ 32 = 2 ^ (32 - n) * 2 ^ n := by
    rw [← Nat.pow_add]; congr 1; omega
  have hpos : 0 < (2 : Nat) ^ (32 - n) := Nat.two_pow_pos _
  have hposn : 0 < (2 : Nat) ^ n := Nat.two_pow_pos _
  have hdiv : x / 2 ^ (32 - n) < 2 ^ n := by
    apply Nat.div_lt_of_lt_mul
    rw [← h32]; exact hx
  have hmod : (x * 2 ^ n) % 2 ^ 32 = 2 ^ n * (x % 2 ^ (32 - n)) := by
    rw [h32, Nat.mul_mod_mul_right, Nat.mul_comm]
  have hmlt : x % 2 ^ (32 - n) < 2 ^ (32 - n) := Nat.mod_lt _ hpos
  unfold rotate_left
  rw [Nat.shiftLeft_eq, Nat.shiftRight_eq_div_pow, hmod]
  refine ⟨(Nat.mul_add_lt_is_or hdiv _).symm, ?_⟩
  calc 2 ^ n * (x % 2 ^ (32 - n)) + x / 2 ^ (32 - n)
      < 2 ^ n * (x % 2 ^ (32 - n)) + 2 ^ n := Nat.add_lt_add_left hdiv _
    _ = 2 ^ n * (x % 2 ^ (32 - n) + 1) := by rw [Nat.mul_add, Nat.mul_one]
    _ ≤ 2 ^ n * 2 ^ (32 - n) := Nat.mul_le_mul_left _ hmlt
    _ = 2 ^ 32 := by rw [h32, Nat.mul_comm]

theorem rotl1_eq (x : Nat) (hx : x < 2 ^ 32) :
    ((x <<< 1) % 2 ^ 32) ||| (x >>> 31) = rotate_left 1 x :=
  (rotate_left_eq 1 x (by decide) hx).1

theorem rotl5_eq (x : Nat) (hx : x < 2 ^ 32) :
    ((x <<< 5) % 2 ^ 32) ||| (x >>> 27) = rotate_left 5 x :=
  (rotate_left_eq 5 x (by decide) hx).1

theorem rotl30_eq (x : Nat) (hx : x < 2 ^ 32) :
    ((x <<< 30) % 2 ^ 32) ||| (x >>> 2) = rotate_left 30 x :=
  (rotate_left_eq 30 x (by decide) hx).1

theorem not32_eq (b : Nat) (hb : b < 2 ^ 32) : b ^^^ 0xFFFFFFFF = 2 ^ 32 - 1 - b := by
  apply Nat.eq_of_testBit_eq
  intro i
  have e1 : (0xFFFFFFFF : Nat) = 2 ^ 32 - 1 := by decide
  have e2 : 2 ^ 32 - 1 - b = 2 ^ 32 - (b + 1) := by omega
  rw [e2, Nat.testBit_two_pow_sub_succ hb, Nat.testBit_xor, e1, Nat.testBit_two_pow_sub_one]
  by_cases hi : i < 32
  · simp [hi]
  · have hf : b.testBit i = false := by
      apply Nat.testBit_lt_two_pow
      calc b < 2 ^ 32 := hb
        _ ≤ 2 ^ i := Nat.pow_le_pow_right (by decide) (by omega)
    simp [hi, hf]

theorem be_word_eq (c0 c1 c2 c3 : Nat) (h0 : c0 < 256) (h1 : c1 < 256) (h2 : c2 < 256)
    (h3 : c3 < 256) :
    ((c0 <<< 24) ||| (c1 <<< 16) ||| (c2 <<< 8) ||| c3) % 2 ^ 32
      = c0 * 2 ^ 24 + c1 * 2 ^ 16 + c2 * 2 ^ 8 + c3 := by
  have a3 : 2 ^ 8 * c2 + c3 = 2 ^ 8 * c2 ||| c3 :=
    Nat.mul_add_lt_is_or (by omega) _
  have a2 : 2 ^ 16 * c1 + (2 ^ 8 * c2 + c3) = 2 ^ 16 * c1 ||| (2 ^ 8 * c2 + c3) :=
    Nat.mul_add_lt_is_or (by omega) _
  have a1 : 2 ^ 24 * c0 + (2 ^ 16 * c1 + (2 ^ 8 * c2 + c3))
      = 2 ^ 24 * c0 ||| (2 ^ 16 * c1 + (2 ^ 8 * c2 + c3)) :=
    Nat.mul_add_lt_is_or (by omega) _
  rw [Nat.shiftLeft_eq, Nat.shiftLeft_eq, Nat.shiftLeft_eq, Nat.or_assoc, Nat.or_assoc,
    Nat.mul_comm c0, Nat.mul_comm c1, Nat.mul_comm c2, ← a3, ← a2, ← a1,
    Nat.mod_eq_of_lt (by omega)]
  omega

theorem for_each_range_inv {σ : Type} (body : σ → Nat → Option σ) (inv : Nat → σ → Prop) :
    ∀ (n start : Nat) (s : σ),
      (∀ s t, start ≤ t → t < start + n → inv t s → ∃ s', body s t = some s' ∧ inv (t + 1) s') →
      inv start s → ∃ s', for_each body (List.range' start n) s = some s' ∧ inv (start + n) s' := by
  intro n
  induction n with
  | zero =>
    intro start s _ hs
    exact ⟨s, rfl, hs⟩
  | succ n ih =>
    intro start s hstep hs
    obtain ⟨s1, e1, h1⟩ := hstep s start (Nat.le_refl _) (by omega) hs
    obtain ⟨s2, e2, h2⟩ := ih (start + 1) s1
      (fun s t ht1 ht2 hi => hstep s t (by omega) (by omega) hi) h1
    refine ⟨s2, ?_, ?_⟩
    · rw [List.range'_succ, for_each, e1, Option.some_bind, e2]
    · have e : start + (n + 1) = start + 1 + n := by omega
      rw [e]; exact h2

theorem schedule_load_eq (chunk w : Buffer) (t : Nat) (hc : 64 ≤ chunk.size)
    (hw : w.size = 80) (ht : t < 16) (hbytes : ∀ j, j < 64 → chunk.data j < 256) :
    schedule_load chunk w t =
      some ⟨w.size, fun j => if j = t then spec_word chunk.data t else w.data j⟩ := by
  have h0 : t * 4 < chunk.size := by omega
  have h1 : t * 4 + 1 < chunk.size := by omega
  have h2 : t * 4 + 2 < chunk.size := by omega
  have h3 : t * 4 + 3 < chunk.size := by omega
  have h4 : t < w.size := by omega
  simp only [schedule_load, Buffer.load, Buffer.store, h0, h1, h2, h3, h4, if_true,
    Option.some_bind]
  rw [be_word_eq _ _ _ _ (hbytes _ (by omega)) (hbytes _ (by omega)) (hbytes _ (by omega))
    (hbytes _ (by omega))]
  unfold spec_word
  rw [Nat.mul_comm t 4]

theorem schedule_expand_eq (w : Buffer) (t : Nat) (hw : w.size = 80) (h16 : 16 ≤ t)
    (ht : t < 80)
    (hx : w.data (t - 3) ^^^ w.data (t - 8) ^^^ w.data (t - 14) ^^^ w.data (t - 16) < 2 ^ 32) :
    schedule_expand w t =
      some ⟨w.size, fun j => if j = t then spec_expand w.data t else w.data j⟩ := by
  have hn : ¬ t < 16 := by omega
  have h0 : t - 3 < w.size := by omega
  have h1 : t - 8 < w.size := by omega
  have h2 : t - 14 < w.size := by omega
  have h3 : t - 16 < w.size := by omega
  have h4 : t < w.size := by omega
  simp only [schedule_expand, Buffer.load, Buffer.store, hn, h0, h1, h2, h3, h4, if_true,
    if_false, Option.some_bind]
  rw [rotl1_eq _ hx]
  refine congrArg some (Buffer.ext_data fun j => ?_)
  unfold spec_expand
  by_cases hj : j = t
  · simp only [hj, if_true]
  · simp only [hj, if_false]

theorem spec_word_lt (block : Nat → Nat) (t : Nat) (ht : t < 16)
    (hbytes : ∀ j, j < 64 → block j < 256) : spec_word block t < 2 ^ 32 := by
  unfold spec_word
  have h0 := hbytes (4 * t) (by omega)
  have h1 := hbytes (4 * t + 1) (by omega)
  have h2 := hbytes (4 * t + 2) (by omega)
  have h3 := hbytes (4 * t + 3) (by omega)
  omega

theorem xor4_lt (a b c d : Nat) (ha : a < 2 ^ 32) (hb : b < 2 ^ 32) (hc : c < 2 ^ 32)
    (hd : d < 2 ^ 32) : a ^^^ b ^^^ c ^^^ d < 2 ^ 32 :=
  Nat.xor_lt_two_pow (Nat.xor_lt_two_pow (Nat.xor_lt_two_pow ha hb) hc) hd

theorem sha1_schedule_words (chunk : Buffer) (hc : 64 ≤ chunk.size)
    (hbytes : ∀ j, j < 64 → chunk.data j < 256) :
    ∃ w, sha1_schedule chunk = some w ∧ w.size = 80 ∧
      (∀ t, t < 16 → w.data t = spec_word chunk.data t) ∧
      (∀ t, 16 ≤ t → t < 80 → w.data t = spec_expand w.data t) := by
  obtain ⟨w1, e1, hs1, hw1⟩ := for_each_range_inv (schedule_load chunk)
    (fun k w => w.size = 80 ∧ ∀ t, t < k → w.data t = spec_word chunk.data t) 16 0
    { size := 80, data := fun _ => 0 }
    (fun w t _ ht hi => by
      refine ⟨_, schedule_load_eq chunk w t hc hi.1 (by omega) hbytes, hi.1, ?_⟩
      intro u hu
      show (if u = t then spec_word chunk.data t else w.data u) = spec_word chunk.data u
      by_cases hut : u = t
      · rw [if_pos hut, hut]
      · rw [if_neg hut]; exact hi.2 u (by omega))
    ⟨rfl, fun t ht => absurd ht (Nat.not_lt_zero t)⟩
  obtain ⟨w, e2, hs2, hlo, hlt, hex⟩ := for_each_range_inv schedule_expand
    (fun k w => w.size = 80 ∧ (∀ t, t < 16 → w.data t = spec_word chunk.data t) ∧
      (∀ t, t < k → w.data t < 2 ^ 32) ∧
      (∀ t, 16 ≤ t → t < k → w.data t = spec_expand w.data t)) 64 16 w1
    (fun w t ht1 ht2 hi => by
      obtain ⟨hsz, hlo, hlt, hex⟩ := hi
      have hx := xor4_lt _ _ _ _ (hlt (t - 3) (by omega)) (hlt (t - 8) (by omega))
        (hlt (t - 14) (by omega)) (hlt (t - 16) (by omega))
      refine ⟨_, schedule_expand_eq w t hsz ht1 (by omega) hx, hsz, ?_, ?_, ?_⟩
      · intro u hu
        show (if u = t then spec_expand w.data t else w.data u) = spec_word chunk.data u
        rw [if_neg (by omega)]; exact hlo u hu
      · intro u hu
        show (if u = t then spec_expand w.data t else w.data u) < 2 ^ 32
        by_cases hut : u = t
        · rw [if_pos hut]
          exact (rotate_left_eq 1 _ (by decide) hx).2
        · rw [if_neg hut]; exact hlt u (by omega)
      · intro u hu1 hu2
        show (if u = t then spec_expand w.data t else w.data u)
          = spec_expand (fun j => if j = t then spec_expand w.data t else w.data j) u
        have hsame : spec_expand (fun j => if j = t then spec_expand w.data t else w.data j) u
            = spec_expand w.data u := by
          unfold spec_expand
          simp only
          rw [if_neg (by omega : ¬ u - 3 = t), if_neg (by omega : ¬ u - 8 = t),
            if_neg (by omega : ¬ u - 14 = t), if_neg (by omega : ¬ u - 16 = t)]
        rw [hsame]
        by_cases hut : u = t
        · rw [if_pos hut, hut]
        · rw [if_neg hut]; exact hex u hu1 (by omega))
    ⟨hs1, hw1, fun t ht => by rw [hw1 t ht]; exact spec_word_lt _ t ht hbytes,
      fun t h1 h2 => by omega⟩
  refine ⟨w, ?_, hs2, hlo, fun t h1 h2 => hex t h1 (by omega)⟩
  unfold sha1_schedule
  rw [e1, Option.some_bind, e2]

theorem sha1_round_eq (w : Buffer) (s : Hash) (t : Nat) (hw : w.size = 80) (ht : t < 80)
    (hs : s.words32) :
    sha1_round w s t = some (spec_round w.data s t) ∧ (spec_round w.data s t).words32 := by
  have h4 : t < w.size := by omega
  obtain ⟨s0, s1, s2, s3, s4⟩ := hs
  constructor
  · unfold spec_round spec_f spec_K
    rw [← rotl5_eq _ s0, ← rotl30_eq _ s1, ← not32_eq _ s1]
    simp only [sha1_round, Buffer.load, h4, if_true, Option.some_bind]
    by_cases h20 : t < 20
    · simp only [h20, if_true, K0]
    · by_cases h40 : t < 40
      · simp only [h20, h40, if_true, if_false, K1]
      · by_cases h60 : t < 60
        · simp only [h20, h40, h60, if_true, if_false, K2]
        · simp only [h20, h40, h60, if_false, K3]
  · exact ⟨Nat.mod_lt _ (Nat.two_pow_pos 32), s0, (rotate_left_eq 30 _ (by decide) s1).2, s2, s3⟩

theorem sha1_rounds_eq (w : Buffer) (hw : w.size = 80) :
    ∀ (ts : List Nat) (s : Hash), (∀ t, t ∈ ts → t < 80) → s.words32 →
      for_each (sha1_round w) ts s = some (ts.foldl (spec_round w.data) s) := by
  intro ts
  induction ts with
  | nil => intro s _ _; rfl
  | cons t ts ih =>
    intro s hts hs
    obtain ⟨e, hs'⟩ := sha1_round_eq w s t hw (hts t (List.mem_cons_self t ts)) hs
    rw [for_each, e, Option.some_bind, List.foldl_cons]
    exact ih _ (fun u hu => hts u (List.mem_cons_of_mem _ hu)) hs'

theorem sha1_process_chunk_eq_spec (chunk : Buffer) (hash : Hash) (hc : 64 ≤ chunk.size)
    (hh : hash.words32) :
    ∃ w, sha1_schedule chunk = some w ∧
      sha1_process_chunk chunk hash = some (spec_add hash (spec_rounds w.data hash)) := by
  obtain ⟨w, hw, hsz⟩ := sha1_schedule_total chunk hc
  refine ⟨w, hw, ?_⟩
  rw [sha1_process_chunk_eq_schedule, hw, Option.some_bind,
    sha1_rounds_eq w hsz _ hash (fun t ht => by
      have := List.mem_range'_1.mp ht; omega) hh, Option.some_bind]
  unfold spec_add spec_rounds
  rw [List.range_eq_range']

theorem and_ff_eq (y : Nat) : y &&& 0xFF = y % 256 :=
  Nat.and_pow_two_sub_one_eq_mod y 8

theorem length_byte_eq (x k : Nat) (hx : x < 2 ^ 32) (hk : k < 8) :
    (be64_bytes x)[k]? = some (((x % 2 ^ 32) >>> (56 - 8 * k)) &&& 0xFF) := by
  rw [Nat.mod_eq_of_lt hx, and_ff_eq, Nat.shiftRight_eq_div_pow]
  unfold be64_bytes
  interval_cases k <;> simp

theorem pad_cells_standard (M : List Nat) (old : Nat → Nat) (h55 : M.length % 64 ≤ 55)
    (h29 : M.length < 2 ^ 29) (n : Nat) :
    ((List.range ((M.length / 64 + 1) * 64)).map
        (pad_cells (Buffer.ofList M) M.length old))[n]? = (standard_padding M)[n]? := by
  have hlen1 : (M ++ [0x80]).length = M.length + 1 := by simp
  have hlen2 : (M ++ [0x80] ++ List.replicate (55 - M.length % 64) 0).length
      = (M.length / 64 + 1) * 64 - 8 := by
    simp only [List.length_append, List.length_replicate, List.length_singleton]
    omega
  rw [List.getElem?_map]
  unfold standard_padding
  by_cases hn : n < (M.length / 64 + 1) * 64
  · rw [List.getElem?_range hn]
    show some (pad_cells (Buffer.ofList M) M.length old n) = _
    unfold pad_cells
    by_cases c1 : (M.length / 64 + 1) * 64 - 8 ≤ n ∧ n < (M.length / 64 + 1) * 64
    · rw [if_pos c1, List.getElem?_append_right (by rw [hlen2]; exact c1.1), hlen2,
        length_byte_eq _ _ (by omega) (by omega)]
    · rw [if_neg c1, List.getElem?_append_left (by rw [hlen2]; omega)]
      by_cases c2 : M.length + 1 ≤ n ∧ n < (M.length / 64 + 1) * 64 - 8
      · rw [if_pos c2, List.getElem?_append_right (by rw [hlen1]; exact c2.1), hlen1,
          List.getElem?_replicate_of_lt (by omega)]
      · rw [if_neg c2, List.getElem?_append_left (by rw [hlen1]; omega)]
        by_cases c3 : n = M.length
        · rw [if_pos c3, c3, List.getElem?_append_right (Nat.le_refl _), Nat.sub_self]
          rfl
        · have c4 : n < M.length := by omega
          rw [if_neg c3, if_pos c4, List.getElem?_append_left c4]
          show some ((M.getD n 0)) = _
          rw [List.getD_eq_getElem?_getD, List.getElem?_eq_getElem c4]
          rfl
  · have h1 : (List.range ((M.length / 64 + 1) * 64))[n]? = none :=
      List.getElem?_eq_none (by rw [List.length_range]; omega)
    rw [h1, List.getElem?_eq_none]
    · rfl
    · rw [List.length_append, hlen2]
      show (M.length / 64 + 1) * 64 - 8 + 8 ≤ n
      omega

/-! ## The claims -/

/-- C1: `sha1` applied to the 3-byte message "abc" with length 3 leaves the
five words A9993E36 4706816A BA3E2571 7850C26C 9CD0D89D in `digest`, in that
order, whatever the allocated block and the digest array held before, and
prints nothing. -/
theorem sha1_abc (garbage : Nat → Nat) (digest : Hash) :
    sha1 (malloc_ok garbage) (ascii "abc") 3 digest =
      some ⟨⟨0xA9993E36, 0x4706816A, 0xBA3E2571, 0x7850C26C, 0x9CD0D89D⟩, []⟩ := by
  rw [sha1_malloc_contents_irrelevant garbage (fun _ => 0) (ascii "abc") 3 digest ⟨0, 0, 0, 0, 0⟩
    (by decide) (by decide)]
  decide!

/-- C2: on the 56-byte message "abcdbcde...nopq" with length 56, `sha1` leaves
the five words 1423848D F9DEC1F0 03FF7954 A4124306 766C8CC3 in `digest`, not
the SHA-1 test vector 84983E44 1C3BD26E BAAE4AA1 F95129E5 E54670F1: the message
is padded to one block, the length field overwriting the marker byte. -/
theorem sha1_two_block_vector_actual (garbage : Nat → Nat) (digest : Hash) :
    sha1 (malloc_ok garbage)
        (ascii "abcdbcdecdefdefgefghfghighijhijkijkljklmklmnlmnomnopnopq") 56 digest =
      some ⟨⟨0x1423848D, 0xF9DEC1F0, 0x03FF7954, 0xA4124306, 0x766C8CC3⟩, []⟩ := by
  rw [sha1_malloc_contents_irrelevant garbage (fun _ => 0)
    (ascii "abcdbcdecdefdefgefghfghighijhijkijkljklmklmnlmnomnopnopq") 56 digest ⟨0, 0, 0, 0, 0⟩
    (by decide) (by decide)]
  decide!

/-- C3: `sha1` applied to the empty message with length 0 leaves the five
words DA39A3EE 5E6B4B0D 3255BFEF 95601890 AFD80709 in `digest`, whatever the
allocated block and the digest array held before, and prints nothing. -/
theorem sha1_empty (garbage : Nat → Nat) (digest : Hash) :
    sha1 (malloc_ok garbage) (ascii "") 0 digest =
      some ⟨⟨0xDA39A3EE, 0x5E6B4B0D, 0x3255BFEF, 0x95601890, 0xAFD80709⟩, []⟩ := by
  rw [sha1_malloc_contents_irrelevant garbage (fun _ => 0) (ascii "") 0 digest ⟨0, 0, 0, 0, 0⟩
    (by decide) (by decide)]
  decide!

/-- C4: for a message of length 56 `sha1_pad_message` reports the padded
length 64, which is below 56 + 9, where the smallest multiple of 64 that is at
least 56 + 9 is 128. -/
theorem sha1_pad_message_length_56 :
    (sha1_pad_message (ascii "abcdbcdecdefdefgefghfghighijhijkijkljklmklmnlmnomnopnopq") 56
        ⟨64, fun _ => 0⟩).map Prod.snd = some 64 ∧ 64 < 56 + 9 := by
  decide!

/-- C5, as claimed, fails: with length `2 ^ 32 - 64` the 32-bit sum
`length + 64` wraps to 0 and `sha1_pad_message` reports the padded length 0,
so not every reported padded length is strictly greater than the length. -/
theorem sha1_pad_message_length_not_always_greater :
    ¬ ∀ (message buf : Buffer) (L : Nat) (r : Buffer × Nat), L < 2 ^ 32 →
        sha1_pad_message message L buf = some r → r.2 % 64 = 0 ∧ L < r.2 := by
  intro h
  have e : (sha1_pad_message ⟨2 ^ 32, fun _ => 0⟩ (2 ^ 32 - 64) ⟨2 ^ 32, fun _ => 0⟩).map
      Prod.snd = some 0 := by decide!
  obtain ⟨r, hr, h0⟩ := Option.map_eq_some'.mp e
  have := (h _ _ _ r (by decide) hr).2
  omega

/-- C5, amended: the padded length `sha1_pad_message` reports is a multiple
of 64 for every length, and for every length below `2 ^ 32 - 64` (with the
message and the buffer large enough for the accesses) the function returns
and the padded length it reports is strictly greater than the length. -/
theorem sha1_pad_message_padded_length (message buf : Buffer) (L : Nat) :
    (∀ r, sha1_pad_message message L buf = some r → r.2 % 64 = 0) ∧
    (L < 2 ^ 32 - 64 → L ≤ message.size → (((L + 64) % 2 ^ 32) &&& 0xFFFFFFC0) ≤ buf.size →
      ∃ p P, sha1_pad_message message L buf = some (p, P) ∧ P % 64 = 0 ∧ L < P) := by
  constructor
  · intro r hr
    rw [sha1_pad_message_length_eq message buf L r hr,
      land_mask _ (Nat.mod_lt _ (by decide))]
    exact Nat.mul_mod_left _ _
  · intro hL hm hb
    rw [padded_length_eq L hL] at hb
    refine ⟨_, _, sha1_pad_message_spec message buf L hL hm hb, Nat.mul_mod_left _ _, ?_⟩
    omega

/-- C5, amended, at the message "abc" and a 64-byte buffer. -/
theorem sha1_pad_message_padded_length_witness :
    ∃ p P, sha1_pad_message (ascii "abc") 3 ⟨64, fun _ => 0⟩ = some (p, P) ∧ P % 64 = 0
      ∧ 3 < P :=
  (sha1_pad_message_padded_length (ascii "abc") ⟨64, fun _ => 0⟩ 3).2 (by decide) (by decide)
    (by decide)

/-- C6: for a message of `2 ^ 29` bytes the last 8 bytes of the buffer
`sha1_pad_message` produces decode, big-endian, to 0, while the length in bits
is `2 ^ 29 * 8 = 2 ^ 32`: the bit length is computed in 32 bits and wraps. -/
theorem sha1_pad_message_bit_length_wraps :
    (sha1_pad_message ⟨2 ^ 29, fun _ => 0⟩ (2 ^ 29) ⟨2 ^ 29 + 64, fun _ => 0⟩).map
        (fun r => be64 r.1 (r.2 - 8)) = some 0 ∧ 2 ^ 29 * 8 ≠ 0 := by
  decide!

/-- C7: for the message of 57 bytes 0x61 the buffer `sha1_pad_message`
produces holds 0 at index 56, not the message byte 0x61: the length field
written at indices 56..63 overwrites the end of the message. -/
theorem sha1_pad_message_overwrites_message :
    (sha1_pad_message (Buffer.ofList (List.replicate 57 0x61)) 57 ⟨64, fun _ => 0⟩).map
        (fun r => r.1.data 56) = some 0 ∧
      (Buffer.ofList (List.replicate 57 0x61)).data 56 = 0x61 := by
  decide!

/-- C8: for the 56-byte message "abcdbcde...nopq" the buffer `sha1_pad_message`
produces holds 0 at index 56, not the marker byte 0x80: the first byte of the
length field overwrites the marker. -/
theorem sha1_pad_message_overwrites_marker :
    (sha1_pad_message (ascii "abcdbcdecdefdefgefghfghighijhijkijkljklmklmnlmnomnopnopq") 56
        ⟨64, fun _ => 0⟩).map (fun r => r.1.data 56) = some 0 := by
  decide!

/-- C9: for a length below `2 ^ 32 - 64`, a message of at least that many
bytes and an allocation that returns a block of at least the requested size,
`sha1_pad_message` returns a buffer `padded` and a padded length `P`, the block
loop of `sha1` terminates, and the digest `sha1` leaves is the left fold of
`sha1_process_chunk` over the blocks 0, 1, ..., P / 64 - 1 of `padded` (block
`b` starts at byte `b * 64`), in that order, from the state 67452301 EFCDAB89
98BADCFE 10325476 C3D2E1F0: one compressor call per block, P / 64 in all. -/
theorem sha1_digest_is_block_fold (malloc : Nat → Option Buffer) (message buf : Buffer)
    (L : Nat) (digest : Hash) (hL : L < 2 ^ 32 - 64) (hm : L ≤ message.size)
    (ha : malloc (((L + 64) % 2 ^ 32) &&& 0xFFFFFFC0) = some buf)
    (hs : (((L + 64) % 2 ^ 32) &&& 0xFFFFFFC0) ≤ buf.size) :
    ∃ padded P final,
      sha1_pad_message message L buf = some (padded, P) ∧
      (List.range (P / 64)).foldlM
          (fun d b => sha1_process_chunk (padded.offset (b * 64)) d)
          ⟨0x67452301, 0xEFCDAB89, 0x98BADCFE, 0x10325476, 0xC3D2E1F0⟩ = some final ∧
      sha1 malloc message L digest = some ⟨final, []⟩ := by
  have hP := padded_length_eq L hL
  rw [hP] at hs
  have hpad := sha1_pad_message_spec message buf L hL hm hs
  have hloop := sha1_block_loop_spec ⟨buf.size, pad_cells message L buf.data⟩ (L / 64 + 1)
    (by omega) (2 ^ 26) 0 ⟨0x67452301, 0xEFCDAB89, 0x98BADCFE, 0x10325476, 0xC3D2E1F0⟩
    (by omega) (by omega)
  rw [Nat.zero_mul, Nat.sub_zero] at hloop
  obtain ⟨final, hfold, _⟩ := for_each_inv
    (fun d b => sha1_process_chunk
      (Buffer.offset ⟨buf.size, pad_cells message L buf.data⟩ (b * 64)) d)
    (fun _ => True) (List.range' 0 (L / 64 + 1))
    (fun d b hb _ => by
      have hlt := List.mem_range'_1.mp hb
      obtain ⟨d', hd'⟩ := sha1_process_chunk_total
        (Buffer.offset ⟨buf.size, pad_cells message L buf.data⟩ (b * 64)) d
        (by show 64 ≤ buf.size - b * 64; omega)
      exact ⟨d', hd', trivial⟩)
    ⟨0x67452301, 0xEFCDAB89, 0x98BADCFE, 0x10325476, 0xC3D2E1F0⟩ trivial
  refine ⟨_, _, final, hpad, ?_, ?_⟩
  · rw [Nat.mul_div_cancel _ (by decide : 0 < 64), List.range_eq_range',
      ← for_each_eq_foldlM]
    exact hfold
  · simp only [sha1, ha, hpad, Option.some_bind, H0, H1, H2, H3, H4]
    rw [hloop, hfold]
    rfl

/-- C9 at the message "abc" and an allocator returning zeroed blocks. -/
theorem sha1_digest_is_block_fold_witness :
    ∃ padded P final,
      sha1_pad_message (ascii "abc") 3 ⟨64, fun _ => 0⟩ = some (padded, P) ∧
      (List.range (P / 64)).foldlM
          (fun d b => sha1_process_chunk (padded.offset (b * 64)) d)
          ⟨0x67452301, 0xEFCDAB89, 0x98BADCFE, 0x10325476, 0xC3D2E1F0⟩ = some final ∧
      sha1 (malloc_ok fun _ => 0) (ascii "abc") 3 ⟨0, 0, 0, 0, 0⟩ = some ⟨final, []⟩ :=
  sha1_digest_is_block_fold (malloc_ok fun _ => 0) (ascii "abc") ⟨64, fun _ => 0⟩ 3
    ⟨0, 0, 0, 0, 0⟩ (by decide) (by decide) rfl (by decide)

/-- C10, as claimed, fails: with an allocator that returns `NULL`, `sha1` on
"abc" returns normally and leaves in `digest` exactly what a successful call
leaves there when the array already held those five words, and leaves a
zero-initialised `digest` zero. -/
theorem sha1_alloc_failure_not_signalled :
    (sha1 malloc_null (ascii "abc") 3
        ⟨0xA9993E36, 0x4706816A, 0xBA3E2571, 0x7850C26C, 0x9CD0D89D⟩).map Outcome.digest =
      (sha1 (malloc_ok fun _ => 0) (ascii "abc") 3
        ⟨0xA9993E36, 0x4706816A, 0xBA3E2571, 0x7850C26C, 0x9CD0D89D⟩).map Outcome.digest ∧
    (sha1 malloc_null (ascii "abc") 3 ⟨0, 0, 0, 0, 0⟩).map Outcome.digest
      = some ⟨0, 0, 0, 0, 0⟩ := by
  decide!

/-- C10, amended: when the allocation of the padded buffer fails, `sha1`
writes the line "Memory allocation failure." to standard output and returns
with the five words of `digest` exactly as the caller had them; it returns no
value. -/
theorem sha1_alloc_failure (malloc : Nat → Option Buffer) (message : Buffer) (L : Nat)
    (digest : Hash) (ha : malloc (((L + 64) % 2 ^ 32) &&& 0xFFFFFFC0) = none) :
    sha1 malloc message L digest = some ⟨digest, ["Memory allocation failure.\n"]⟩ := by
  simp only [sha1, ha]

/-- C10, amended, at the message "abc" and an allocator that returns `NULL`. -/
theorem sha1_alloc_failure_witness :
    sha1 malloc_null (ascii "abc") 3 ⟨1, 2, 3, 4, 5⟩
      = some ⟨⟨1, 2, 3, 4, 5⟩, ["Memory allocation failure.\n"]⟩ :=
  sha1_alloc_failure malloc_null (ascii "abc") 3 ⟨1, 2, 3, 4, 5⟩ rfl

/-- C13: in the buffer `sha1_pad_message` produces for a message of length L,
with P the padded length it reports, every cell at an index i with
L < i < P - 8 is 0; and for L below `2 ^ 32 - 64`, a message of at least L
bytes and a buffer of at least P cells the function does return. -/
theorem sha1_pad_message_zero_fill (message buf : Buffer) (L : Nat) :
    (∀ r, sha1_pad_message message L buf = some r →
      ∀ i, L < i → i < r.2 - 8 → r.1.data i = 0) ∧
    (L < 2 ^ 32 - 64 → L ≤ message.size → (((L + 64) % 2 ^ 32) &&& 0xFFFFFFC0) ≤ buf.size →
      (sha1_pad_message message L buf).isSome) := by
  constructor
  · intro r hr i hi1 hi2
    have hlen := sha1_pad_message_length_eq message buf L r hr
    obtain ⟨hm, _, hb, _⟩ := sha1_pad_message_some message buf L r hr
    by_cases hL : L < 2 ^ 32 - 64
    · have hP := padded_length_eq L hL
      rw [hP] at hb hlen
      rw [sha1_pad_message_spec message buf L hL hm hb] at hr
      rw [← Option.some.inj hr] at hi2 ⊢
      show pad_cells message L buf.data i = 0
      unfold pad_cells
      have c1 : ¬ ((L / 64 + 1) * 64 - 8 ≤ i ∧ i < (L / 64 + 1) * 64) := by
        have : i < (L / 64 + 1) * 64 - 8 := hi2
        omega
      have c2 : L + 1 ≤ i ∧ i < (L / 64 + 1) * 64 - 8 := ⟨hi1, hi2⟩
      simp only [c1, c2, and_self, if_true, if_false]
    · exfalso
      rw [hlen, land_mask _ (Nat.mod_lt _ (by decide))] at hi2
      omega
  · intro hL hm hb
    rw [padded_length_eq L hL] at hb
    rw [sha1_pad_message_spec message buf L hL hm hb]
    rfl

/-- C13 at the message "abc" and a 64-byte buffer: the function returns. -/
theorem sha1_pad_message_zero_fill_witness :
    (sha1_pad_message (ascii "abc") 3 ⟨64, fun _ => 7⟩).isSome :=
  (sha1_pad_message_zero_fill (ascii "abc") ⟨64, fun _ => 7⟩ 3).2 (by decide) (by decide)
    (by decide)

/-- C14: for every block of at least 64 bytes (so for every block of exactly
64 bytes) and every 5-word state, the two schedule loops return the 80-word
array and `sha1_process_chunk` returns a 5-word state: no read of the block
and no read or write of the schedule falls outside its array. -/
theorem sha1_process_chunk_in_bounds (chunk : Buffer) (hash : Hash) (hc : 64 ≤ chunk.size) :
    ∃ w hash', sha1_schedule chunk = some w ∧ w.size = 80 ∧
      sha1_process_chunk chunk hash = some hash' := by
  obtain ⟨w, hw, hsz⟩ := sha1_schedule_total chunk hc
  obtain ⟨hash', hh⟩ := sha1_process_chunk_total chunk hash hc
  exact ⟨w, hash', hw, hsz, hh⟩

/-- C14 at the block of 64 bytes 0x61 and the initial state. -/
theorem sha1_process_chunk_in_bounds_witness :
    ∃ w hash', sha1_schedule (Buffer.ofList (List.replicate 64 0x61)) = some w ∧ w.size = 80 ∧
      sha1_process_chunk (Buffer.ofList (List.replicate 64 0x61)) ⟨H0, H1, H2, H3, H4⟩
        = some hash' :=
  sha1_process_chunk_in_bounds (Buffer.ofList (List.replicate 64 0x61)) ⟨H0, H1, H2, H3, H4⟩
    (by decide)

/-- C15: for every length L below `2 ^ 32 - 64` and a message of at least L
bytes, with the block `sha1` allocates being of exactly P = (L + 64) & ~63
cells, `sha1_pad_message` returns, so every index it writes is below P; it
reports the padded length P and leaves the block at P cells; every byte of
every 64-byte block 0 .. P / 64 - 1 is then read inside the block, and `sha1`
returns. -/
theorem sha1_pad_message_within_allocation (malloc : Nat → Option Buffer)
    (message buf : Buffer) (L : Nat) (digest : Hash) (hL : L < 2 ^ 32 - 64)
    (hm : L ≤ message.size)
    (ha : malloc (((L + 64) % 2 ^ 32) &&& 0xFFFFFFC0) = some buf)
    (hs : buf.size = ((L + 64) % 2 ^ 32) &&& 0xFFFFFFC0) :
    ∃ p, sha1_pad_message message L buf = some (p, ((L + 64) % 2 ^ 32) &&& 0xFFFFFFC0) ∧
      p.size = (((L + 64) % 2 ^ 32) &&& 0xFFFFFFC0) ∧
      (∀ b j, b < (((L + 64) % 2 ^ 32) &&& 0xFFFFFFC0) / 64 → j < 64 →
        (p.offset (b * 64)).load j = some (p.data (b * 64 + j))) ∧
      (sha1 malloc message L digest).isSome := by
  have hP := padded_length_eq L hL
  rw [hP] at hs ⊢
  have hb : (L / 64 + 1) * 64 ≤ buf.size := by omega
  refine ⟨_, sha1_pad_message_spec message buf L hL hm hb, hs, ?_, ?_⟩
  · intro b j hbl hj
    rw [Nat.mul_div_cancel _ (by decide : 0 < 64)] at hbl
    have hlt : b * 64 + j < buf.size := by omega
    rw [Buffer.load_offset]
    simp only [Buffer.load, hlt, if_true]
  · obtain ⟨final, _, hfin⟩ := sha1_eq_block_fold malloc message buf L digest hL hm
      ha hb
    rw [hfin]
    rfl

/-- C15 at the message "abc" and an allocator returning blocks of exactly the
requested size. -/
theorem sha1_pad_message_within_allocation_witness :
    ∃ p, sha1_pad_message (ascii "abc") 3 ⟨64, fun _ => 7⟩
        = some (p, ((3 + 64) % 2 ^ 32) &&& 0xFFFFFFC0) ∧
      p.size = (((3 + 64) % 2 ^ 32) &&& 0xFFFFFFC0) ∧
      (∀ b j, b < (((3 + 64) % 2 ^ 32) &&& 0xFFFFFFC0) / 64 → j < 64 →
        (p.offset (b * 64)).load j = some (p.data (b * 64 + j))) ∧
      (sha1 (malloc_ok fun _ => 7) (ascii "abc") 3 ⟨0, 0, 0, 0, 0⟩).isSome :=
  sha1_pad_message_within_allocation (malloc_ok fun _ => 7) (ascii "abc") ⟨64, fun _ => 7⟩ 3
    ⟨0, 0, 0, 0, 0⟩ (by decide) (by decide) rfl rfl

/-- C17: for every 32-bit length L, every allocator and every two messages of
at least L bytes that agree at all indices below P - 8, where
P = (L + 64) & ~63, `sha1` leaves the same outcome for both; in particular,
when 57 <= L mod 64 <= 63, the message bytes at indices P - 8 .. L - 1 never
influence the digest. -/
theorem sha1_ignores_overwritten_tail (malloc : Nat → Option Buffer) (M1 M2 : Buffer)
    (L : Nat) (digest : Hash) (hL : L < 2 ^ 32) (h1 : L ≤ M1.size) (h2 : L ≤ M2.size)
    (hag : ∀ j, j < (((L + 64) % 2 ^ 32) &&& 0xFFFFFFC0) - 8 → M1.data j = M2.data j) :
    sha1 malloc M1 L digest = sha1 malloc M2 L digest := by
  cases hmal : malloc (((L + 64) % 2 ^ 32) &&& 0xFFFFFFC0) with
  | none => simp only [sha1, hmal]
  | some buf =>
    simp only [sha1, hmal]
    have hiso := sha1_pad_message_isSome_congr M1 M2 buf L h1 h2
    cases e1 : sha1_pad_message M1 L buf with
    | none =>
      cases e2 : sha1_pad_message M2 L buf with
      | none => rfl
      | some r2 => rw [e1, e2] at hiso; exact absurd hiso (by simp)
    | some r1 =>
      cases e2 : sha1_pad_message M2 L buf with
      | none => rw [e1, e2] at hiso; exact absurd hiso (by simp)
      | some r2 =>
        simp only [Option.some_bind]
        by_cases hreg : L < 2 ^ 32 - 64
        · have hP := padded_length_eq L hreg
          obtain ⟨_, _, hb, _⟩ := sha1_pad_message_some M1 buf L r1 e1
          rw [hP] at hb hag
          rw [sha1_pad_message_spec M1 buf L hreg h1 hb] at e1
          rw [sha1_pad_message_spec M2 buf L hreg h2 hb] at e2
          have hc : pad_cells M1 L buf.data = pad_cells M2 L buf.data :=
            funext (pad_cells_message_congr M1 M2 L buf.data hag)
          rw [← Option.some.inj e1, ← Option.some.inj e2, hc]
        · have hz := padded_length_wrap L (by omega) hL
          have z1 := sha1_pad_message_length_eq M1 buf L r1 e1
          have z2 := sha1_pad_message_length_eq M2 buf L r2 e2
          rw [hz] at z1 z2
          rw [z1, z2, sha1_block_loop_zero, sha1_block_loop_zero]

/-- C17 at length 57 and two messages that differ in their last byte only
(index 56 = P - 8). -/
theorem sha1_ignores_overwritten_tail_witness :
    sha1 (malloc_ok fun _ => 0) (Buffer.ofList (List.replicate 56 0x61 ++ [0x62])) 57
        ⟨0, 0, 0, 0, 0⟩ =
      sha1 (malloc_ok fun _ => 0) (Buffer.ofList (List.replicate 56 0x61 ++ [0x63])) 57
        ⟨0, 0, 0, 0, 0⟩ :=
  sha1_ignores_overwritten_tail (malloc_ok fun _ => 0)
    (Buffer.ofList (List.replicate 56 0x61 ++ [0x62]))
    (Buffer.ofList (List.replicate 56 0x61 ++ [0x63])) 57 ⟨0, 0, 0, 0, 0⟩
    (by decide) (by decide) (by decide)
    (fun j hj => by
      have h56 : j < 56 := hj
      show (List.replicate 56 0x61 ++ [0x62]).getD j 0 = (List.replicate 56 0x61 ++ [0x63]).getD j 0
      rw [List.getD_append _ _ _ _ (by simpa using h56), List.getD_append _ _ _ _ (by simpa using h56)])

/-- C11: for every block of at least 64 bytes (so for every 64-byte block)
and every state `h` of five 32-bit words, `sha1_process_chunk` returns `h + r`
element-wise modulo `2 ^ 32`, where `r` comes from `h` by the 80 round steps
`t = 0 .. 79` of the specification (`temp = rotl5(a) + f + e + K + w[t]`;
`e = d; d = c; c = rotl30(b); b = a; a = temp`, with `f` and `K` by quarter)
over the schedule `w` the function builds. -/
theorem sha1_process_chunk_rounds (chunk : Buffer) (hash : Hash) (hc : 64 ≤ chunk.size)
    (hh : hash.words32) :
    ∃ w, sha1_schedule chunk = some w ∧
      sha1_process_chunk chunk hash =
        some (spec_add hash ((List.range 80).foldl (spec_round w.data) hash)) :=
  sha1_process_chunk_eq_spec chunk hash hc hh

/-- C11 at the block of 64 bytes 0x61 and the initial state. -/
theorem sha1_process_chunk_rounds_witness :
    ∃ w, sha1_schedule (Buffer.ofList (List.replicate 64 0x61)) = some w ∧
      sha1_process_chunk (Buffer.ofList (List.replicate 64 0x61)) ⟨H0, H1, H2, H3, H4⟩ =
        some (spec_add ⟨H0, H1, H2, H3, H4⟩
          ((List.range 80).foldl (spec_round w.data) ⟨H0, H1, H2, H3, H4⟩)) :=
  sha1_process_chunk_rounds (Buffer.ofList (List.replicate 64 0x61)) ⟨H0, H1, H2, H3, H4⟩
    (by decide) ⟨by decide, by decide, by decide, by decide, by decide⟩

/-- C12: for every block of at least 64 bytes, each below 256, the schedule
`sha1_process_chunk` builds has 80 words with, for t in 0..15,
`w[t] = block[4t] * 2^24 + block[4t+1] * 2^16 + block[4t+2] * 2^8 + block[4t+3]`
and, for t in 16..79,
`w[t] = rotate_left_1(w[t-3] XOR w[t-8] XOR w[t-14] XOR w[t-16])`. -/
theorem sha1_schedule_spec (chunk : Buffer) (hc : 64 ≤ chunk.size)
    (hbytes : ∀ j, j < 64 → chunk.data j < 256) :
    ∃ w, sha1_schedule chunk = some w ∧ w.size = 80 ∧
      (∀ t, t < 16 → w.data t =
        chunk.data (4 * t) * 2 ^ 24 + chunk.data (4 * t + 1) * 2 ^ 16
          + chunk.data (4 * t + 2) * 2 ^ 8 + chunk.data (4 * t + 3)) ∧
      (∀ t, 16 ≤ t → t < 80 → w.data t =
        rotate_left 1 (w.data (t - 3) ^^^ w.data (t - 8) ^^^ w.data (t - 14)
          ^^^ w.data (t - 16))) :=
  sha1_schedule_words chunk hc hbytes

/-- C12 at the block of 64 bytes 0x61. -/
theorem sha1_schedule_spec_witness :
    ∃ w, sha1_schedule (Buffer.ofList (List.replicate 64 0x61)) = some w ∧ w.size = 80 ∧
      (∀ t, t < 16 → w.data t =
        (Buffer.ofList (List.replicate 64 0x61)).data (4 * t) * 2 ^ 24
          + (Buffer.ofList (List.replicate 64 0x61)).data (4 * t + 1) * 2 ^ 16
          + (Buffer.ofList (List.replicate 64 0x61)).data (4 * t + 2) * 2 ^ 8
          + (Buffer.ofList (List.replicate 64 0x61)).data (4 * t + 3)) ∧
      (∀ t, 16 ≤ t → t < 80 → w.data t =
        rotate_left 1 (w.data (t - 3) ^^^ w.data (t - 8) ^^^ w.data (t - 14)
          ^^^ w.data (t - 16))) :=
  sha1_schedule_spec (Buffer.ofList (List.replicate 64 0x61)) (by decide) (by decide)

/-- C16: for every message `M` of length L with L mod 64 <= 55 and L < 2^29,
and a buffer of at least 64 * (L / 64 + 1) cells, `sha1_pad_message` returns,
reports the padded length 64 * (L / 64 + 1), and the first that many cells of
the buffer are exactly the standard SHA-1 padding of `M`: `M`, the byte 0x80,
55 - (L mod 64) zero bytes, and L * 8 as a 64-bit big-endian integer. -/
theorem sha1_pad_message_standard (M : List Nat) (buf : Buffer)
    (h55 : M.length % 64 ≤ 55) (h29 : M.length < 2 ^ 29)
    (hb : 64 * (M.length / 64 + 1) ≤ buf.size) :
    ∃ p, sha1_pad_message (Buffer.ofList M) M.length buf
        = some (p, 64 * (M.length / 64 + 1)) ∧
      (List.range (64 * (M.length / 64 + 1))).map p.data = standard_padding M := by
  rw [Nat.mul_comm 64] at hb ⊢
  refine ⟨_, sha1_pad_message_spec (Buffer.ofList M) buf M.length (by omega)
    (Nat.le_refl _) hb, ?_⟩
  exact List.ext_getElem? (pad_cells_standard M buf.data h55 h29)

/-- C16 at the message "abc" and a 64-byte buffer. -/
theorem sha1_pad_message_standard_witness :
    ∃ p, sha1_pad_message (Buffer.ofList [0x61, 0x62, 0x63]) [0x61, 0x62, 0x63].length
        ⟨64, fun _ => 7⟩ = some (p, 64 * ([0x61, 0x62, 0x63].length / 64 + 1)) ∧
      (List.range (64 * ([0x61, 0x62, 0x63].length / 64 + 1))).map p.data
        = standard_padding [0x61, 0x62, 0x63] :=
  sha1_pad_message_standard [0x61, 0x62, 0x63] ⟨64, fun _ => 7⟩ (by decide) (by decide)
    (by decide)

end SHA1
